import Mathlib

/-!
# Verification of the nussl training-loop orchestration layer

Shallow embedding of `src/nussl/ml/train/trainer.py`.

The module attaches handlers to `ignite` engines.  An engine's mutable run
state is embedded as an explicit `EngineState` record; Python dictionaries
that map metric names to lists of floats are embedded as association lists
(`List (String × List ℚ)`) that preserve insertion order, exactly as Python
dicts do; floating-point metric values are embedded as rationals.  File-system
effects and event firing performed by the checkpoint handler are embedded as
an explicit trace of `TrainerAction`s.
-/

namespace Nussl

/-- Lookup in an insertion-ordered association list (Python `d[k]` /
`k in d`, which compares keys by equality and returns the first match;
a Python dict has at most one entry per key). -/
def hfind {β : Type} (h : List (String × β)) (k : String) : Option β :=
  match h with
  | [] => none
  | (k', v) :: t => if k' = k then some v else hfind t k

/-- Lookup with the empty list as default (the lists stored in the
history dicts are only ever read after the key was inserted). -/
def hGetD {β : Type} (h : List (String × List β)) (k : String) : List β :=
  (hfind h k).getD []

/-- Helper for `histAppend`: extend the list stored at key `k` with the
value `v`, keeping the entry at its position. -/
def appendAt {β : Type} (k : String) (v : β) :
    List (String × List β) → List (String × List β)
  | [] => []
  | (a, b) :: t =>
    if a = k then (a, b ++ [v]) :: appendAt k v t else (a, b) :: appendAt k v t

/-- Embedding of the idiom
`if key not in d: d[key] = []` followed by `d[key].append(v)` on a Python
dict of lists: if the key is present its list is extended in place (the
entry keeps its position), otherwise a new entry is added at the end. -/
def histAppend {β : Type} (h : List (String × List β)) (k : String) (v : β) :
    List (String × List β) :=
  match hfind h k with
  | some _ => appendAt k v h
  | none => h ++ [(k, [v])]

/-- Embedding of `np.mean` on a list of rationals (sum divided by length; the source
only ever takes means of nonempty lists). -/
def pyMean (l : List ℚ) : ℚ := l.sum / l.length

/-- Python `min` on a nonempty list (`0` is a junk value for `[]`,
where Python would raise; the source only calls it on nonempty lists). -/
def pyMin (l : List ℚ) : ℚ :=
  match l with
  | [] => 0
  | x :: xs => xs.foldl min x

/-- Python `l[-1]` on a nonempty list (`0` is a junk value for `[]`). -/
def pyLast (l : List ℚ) : ℚ := l.getLastD 0

/-- Python `int()` on a rational: truncation toward zero. -/
def pyInt (q : ℚ) : ℤ := if 0 ≤ q then ⌊q⌋ else ⌈q⌉

/-- Embedding of `os.path.join` for a relative second component. -/
def osPathJoin (a b : String) : String := a ++ "/" ++ b

/-- Embedding of `os.path.join` with three components, as in
`os.path.join(output_folder, 'checkpoints', 'latest.model.pth')`. -/
def osPathJoin3 (a b c : String) : String := a ++ "/" ++ b ++ "/" ++ c

/-- A torch device; the source only distinguishes `'cuda'` from `'cpu'`. -/
inductive TorchDevice where
  | cpu : TorchDevice
  | cuda : TorchDevice
deriving DecidableEq, Repr

/-- The data of a tensor entry that the trainer's batch handler can
observe: its dtype (only float-ness matters to `.float()`) and the device
it lives on. -/
structure TensorData where
  isFloat : Bool
  device : TorchDevice
deriving DecidableEq, Repr

/-- One entry of a batch dictionary: either a tensor or any other value
(`torch.is_tensor` is false). -/
inductive BatchEntry where
  | tensor : TensorData → BatchEntry
  | nonTensor : BatchEntry
deriving DecidableEq, Repr

/-- Embedding of lines 95–97 of `trainer.py`:
`device = torch.device(device); if not torch.cuda.is_available():
device = torch.device('cpu')`.  Total: device resolution never raises. -/
def resolveDevice (requested : TorchDevice) (cudaAvailable : Bool) : TorchDevice :=
  if !cudaAvailable then TorchDevice.cpu else requested

/-- A model as seen by the checkpoint handler: either a bare module or a
`nn.DataParallel` wrapper around one (`model.module`). -/
inductive TorchModel where
  | base : String → TorchModel
  | dataParallel : TorchModel → TorchModel
deriving DecidableEq, Repr

/-- Embedding of lines 238–241:
`_model = model.module if isinstance(model, nn.DataParallel) else model`. -/
def unwrapDataParallel : TorchModel → TorchModel
  | TorchModel.dataParallel m => m
  | TorchModel.base n => TorchModel.base n

/-- The mutable run state of an ignite engine, restricted to the fields
the trainer's handlers read or write (`engine.state` in the source,
including the extension fields the handlers attach). -/
structure EngineState where
  iteration : ℕ := 0
  epoch : ℕ := 0
  max_epochs : ℕ := 0
  epoch_length : ℕ := 0
  seed : ℕ := 0
  output : List (String × ℚ) := []
  metrics : List (String × ℚ) := []
  batch : List (String × BatchEntry) := []
  epoch_history : List (String × List ℚ) := []
  iter_history : List (String × List ℚ) := []
  past_iter_history : List (String × List (List ℚ)) := []
  saved_model_path : Option String := none
  output_folder : Option String := none
deriving DecidableEq, Repr

/-- Embedding of `prepare_batch` (lines 99–104): every tensor entry of the
batch is cast to float and moved to the resolved device; other entries are
untouched. -/
def prepare_batch (device : TorchDevice) (st : EngineState) : EngineState :=
  { st with batch := st.batch.map (fun p =>
      match p.2 with
      | BatchEntry.tensor _ => (p.1, BatchEntry.tensor ⟨true, device⟩)
      | BatchEntry.nonTensor => p) }

/-- Embedding of `book_keeping` (lines 107–110): the three history dicts
are set to empty at run start. -/
def book_keeping (st : EngineState) : EngineState :=
  { st with epoch_history := [], iter_history := [], past_iter_history := [] }

/-- One step of the loop body of `add_to_iter_history` (lines 113–123),
for a single `key` of `engine.state.output`: append the output value to
`iter_history[key]`, then append the updated `iter_history[key]` sequence
to `past_iter_history[key]` (value semantics: the snapshot taken at the
moment of the append). -/
def addOutputEntry (st : EngineState) (p : String × ℚ) : EngineState :=
  let ih := histAppend st.iter_history p.1 p.2
  { st with
      iter_history := ih,
      past_iter_history := histAppend st.past_iter_history p.1 (hGetD ih p.1) }

/-- Embedding of `add_to_iter_history` (lines 112–123): fold the per-key
step over the keys of `engine.state.output` in dict order. -/
def add_to_iter_history (st : EngineState) : EngineState :=
  st.output.foldl addOutputEntry st

/-- Embedding of `clear_iter_history` (lines 125–126). -/
def clear_iter_history (st : EngineState) : EngineState :=
  { st with iter_history := [] }

/-- The engine setting `state.output` to the step function's return value
and firing `ITERATION_COMPLETED`, whose handler is `add_to_iter_history`. -/
def processIteration (o : List (String × ℚ)) (st : EngineState) : EngineState :=
  add_to_iter_history { st with output := o, iteration := st.iteration + 1 }

/-- Result of `cache_dataset` (lines 27–57): the dataset after the run
(the engine's process function `dummy_process` does nothing, so the items
are unchanged), the completion flag set on line 57, the computed logging
interval `max(int(len(dataset) * log_frequency), 1)` (line 48), the number
of progress messages emitted by the handler attached with
`Events.ITERATION_STARTED(every=log_frequency)` (ignite fires it at every
iteration number divisible by the interval, so `len / interval` times over
one pass), and the number of iterations performed (one pass). -/
structure CacheRunResult (α : Type) where
  dataset : List α
  cache_populated : Bool
  log_interval : ℕ
  log_count : ℕ
  iterations : ℕ
deriving DecidableEq, Repr

/-- Embedding of `cache_dataset` (lines 27–57). -/
def cache_dataset {α : Type} (ds : List α) (log_frequency : ℚ) : CacheRunResult α :=
  let e : ℕ := (max (pyInt ((ds.length : ℚ) * log_frequency)) 1).toNat
  { dataset := ds
    cache_populated := true
    log_interval := e
    log_count := ds.length / e
    iterations := ds.length }

/-- The logging interval as worded by the specification:
`ceil(length × frequency)` items, minimum 1.  Stated from the spec's words
only, to be compared against the interval the code computes. -/
def cacheIntervalSpec (n : ℕ) (f : ℚ) : ℕ :=
  max (⌈(n : ℚ) * f⌉).toNat 1

/-- The custom events registered on the trainer (lines 14–25). -/
inductive TrainerEvent where
  | validation_started : TrainerEvent
  | validation_completed : TrainerEvent
  | backwards_completed : TrainerEvent
deriving DecidableEq, Repr

/-- The descriptor fields of the training dataset read on lines 218–223
when the metadata block is assembled; their contents are opaque payloads. -/
structure DatasetDescriptor where
  stft_params : String
  sample_rate : ℕ
  num_channels : ℕ
  folder : String
  transform : String
deriving DecidableEq, Repr

/-- The `trainer.state_dict` sub-object of the metadata (lines 224–231). -/
structure TrainerStateDict where
  epoch : ℕ
  epoch_length : ℕ
  max_epochs : ℕ
  output : List (String × ℚ)
  metrics : List (String × ℚ)
  seed : ℕ
deriving DecidableEq, Repr

/-- The metadata block saved with the model (lines 218–233). -/
structure Metadata where
  stft_params : String
  sample_rate : ℕ
  num_channels : ℕ
  folder : String
  transforms : String
  state_dict : TrainerStateDict
  epoch_history : List (String × List ℚ)
deriving DecidableEq, Repr

/-- Assembling the metadata dict from the dataset descriptor and the
current trainer state (lines 218–233); `epoch_history` is the history
after this epoch's validation and train means were appended. -/
def mkMetadata (d : DatasetDescriptor) (st : EngineState) : Metadata :=
  { stft_params := d.stft_params
    sample_rate := d.sample_rate
    num_channels := d.num_channels
    folder := d.folder
    transforms := d.transform
    state_dict :=
      { epoch := st.epoch
        epoch_length := st.epoch_length
        max_epochs := st.max_epochs
        output := st.output
        metrics := st.metrics
        seed := st.seed }
    epoch_history := st.epoch_history }

/-- The observable actions performed by `validate_and_checkpoint`, in
order: firing a custom event, running the validation engine, `os.makedirs`,
`model.save(path, metadata)` on the (unwrapped) model, and
`torch.save(optimizer.state_dict(), path)`. -/
inductive TrainerAction where
  | fireEvent : TrainerEvent → TrainerAction
  | runValidator : TrainerAction
  | makedirs : String → TrainerAction
  | saveModel : String → TorchModel → Metadata → TrainerAction
  | saveOptimizer : String → TrainerAction
deriving DecidableEq, Repr

/-- The fixed arguments of `add_validate_and_checkpoint` that the
handler closes over (lines 150–151). -/
structure CheckpointSetup where
  output_folder : String
  model : TorchModel
  train_data : DatasetDescriptor
deriving DecidableEq, Repr

/-- The loop on lines 191–197: for every key of the validator's
`iter_history`, in dict order, append the mean of that key's values to the
trainer's `epoch_history` under `"validation/" + key`. -/
def appendValidationMeans (vh : List (String × List ℚ))
    (eh : List (String × List ℚ)) : List (String × List ℚ) :=
  vh.foldl (fun h p => histAppend h ("validation/" ++ p.1) (pyMean p.2)) eh

/-- The loop on lines 203–209: for every key of the trainer's
`iter_history`, in dict order, append the mean of that key's values to
`epoch_history` under `"train/" + key`. -/
def appendTrainMeans (ih : List (String × List ℚ))
    (eh : List (String × List ℚ)) : List (String × List ℚ) :=
  ih.foldl (fun h p => histAppend h ("train/" ++ p.1) (pyMean p.2)) eh

/-- The trainer's `epoch_history` after the validation block (lines
188–197): unchanged when no validator is configured (`validatorRun = none`),
otherwise extended with this epoch's validation means.  `validatorRun`
carries the validator's `iter_history` after `validator.run(val_data)`. -/
def ehAfterValidation (validatorRun : Option (List (String × List ℚ)))
    (eh : List (String × List ℚ)) : List (String × List ℚ) :=
  match validatorRun with
  | none => eh
  | some vh => appendValidationMeans vh eh

/-- The `is_best` flag as computed on lines 187–201: `True` up front;
when a validator ran and `'validation/loss'` is a key of the (updated)
epoch history, replaced by `cur == min(...)` where `cur` is the last value
under that key. -/
def isBestAfterValidation (validatorRun : Option (List (String × List ℚ)))
    (eh : List (String × List ℚ)) : Bool :=
  match validatorRun with
  | none => true
  | some vh =>
    match hfind (appendValidationMeans vh eh) "validation/loss" with
    | none => true
    | some l => decide (pyLast l = pyMin l)

/-- Embedding of the `validate_and_checkpoint` handler (lines 183–248),
registered on `Events.EPOCH_COMPLETED`.  Returns the engine state after
the handler and the ordered trace of observable actions it performed.
Running the validation engine is represented by its resulting
`iter_history` (`validatorRun`); `none` embeds `validator is None`. -/
def validate_and_checkpoint (cfg : CheckpointSetup)
    (validatorRun : Option (List (String × List ℚ)))
    (st : EngineState) : EngineState × List TrainerAction :=
  let valActs : List TrainerAction :=
    match validatorRun with
    | none => []
    | some _ => [TrainerAction.runValidator]
  let eh1 := ehAfterValidation validatorRun st.epoch_history
  let is_best := isBestAfterValidation validatorRun st.epoch_history
  let eh2 := appendTrainMeans st.iter_history eh1
  let st2 := { st with epoch_history := eh2 }
  let latest := osPathJoin3 cfg.output_folder "checkpoints" "latest.model.pth"
  let output_paths :=
    [latest] ++
      (if is_best then
        [osPathJoin3 cfg.output_folder "checkpoints" "best.model.pth"]
      else [])
  let meta := mkMetadata cfg.train_data st2
  let saveActs := output_paths.flatMap (fun p =>
    [TrainerAction.makedirs (osPathJoin cfg.output_folder "checkpoints"),
     TrainerAction.saveModel p (unwrapDataParallel cfg.model) meta,
     TrainerAction.saveOptimizer (p.replace "model.pth" "optimizer.pth")])
  let st3 := { st2 with
      saved_model_path := some (output_paths.getLastD ""),
      output_folder := some cfg.output_folder }
  (st3, [TrainerAction.fireEvent TrainerEvent.validation_started]
          ++ valActs ++ saveActs
          ++ [TrainerAction.fireEvent TrainerEvent.validation_completed])

/-- One training epoch as data: the step outputs of its iterations, and
the validator's `iter_history` after this epoch's validation run
(`none` embeds `validator is None`). -/
structure EpochSpec where
  iters : List (List (String × ℚ))
  valHist : Option (List (String × List ℚ))
deriving DecidableEq, Repr

/-- One completed training epoch of the composed system: the engine
advances the epoch counter and fires `EPOCH_STARTED`
(`clear_iter_history`), runs each iteration (`ITERATION_COMPLETED` fires
`add_to_iter_history`), then fires `EPOCH_COMPLETED`
(`validate_and_checkpoint`). -/
def runEpoch (cfg : CheckpointSetup) (e : EpochSpec) (st : EngineState) :
    EngineState :=
  let st1 := clear_iter_history { st with epoch := st.epoch + 1 }
  let st2 := e.iters.foldl (fun s o => processIteration o s) st1
  (validate_and_checkpoint cfg e.valHist st2).1

/-- A run of the trainer that completes its epochs without error:
`STARTED` fires `book_keeping`, then each epoch runs in sequence. -/
def runTrainer (cfg : CheckpointSetup) (es : List EpochSpec)
    (st0 : EngineState) : EngineState :=
  es.foldl (fun s e => runEpoch cfg e s) (book_keeping st0)

/-- A run whose step function raises during the epoch after `es`: the
engine fires `EPOCH_STARTED` and processes the iterations that completed
before the failing one, then the exception propagates (the engine does not
catch it and does not retry), so `EPOCH_COMPLETED` — and with it
`validate_and_checkpoint` — never fires for the partial epoch. -/
def runTrainerAborted (cfg : CheckpointSetup) (es : List EpochSpec)
    (doneIters : List (List (String × ℚ))) (st0 : EngineState) : EngineState :=
  let st := runTrainer cfg es st0
  let st1 := clear_iter_history { st with epoch := st.epoch + 1 }
  doneIters.foldl (fun s o => processIteration o s) st1

/-- Two-digit zero padding, as `time.strftime` produces. -/
def pad2 (n : ℕ) : String :=
  if n < 10 then "0" ++ toString n else toString n

/-- Embedding of `time.strftime("%H:%M:%S", time.gmtime(t))` for `t` whole seconds
(hours wrap at 24 because `gmtime` exposes the hour of day). -/
def strftimeHMS (t : ℕ) : String :=
  pad2 (t / 3600 % 24) ++ ":" ++ pad2 (t % 3600 / 60) ++ ":" ++ pad2 (t % 60)

/-- The epoch summary assembled by `log_epoch_to_stdout` (lines 289–324).
`validation_loss = none` embeds the `'N/A'` sentinel, printed when the
`try` block fails to read `epoch_history['validation/loss'][-1]`. -/
structure EpochSummary where
  epoch_number : ℕ
  total_epochs : ℕ
  train_loss : ℚ
  validation_loss : Option ℚ
  epoch_time : String
  overall_time : String
  saved_model_path : Option String
  out_folder : Option String
deriving DecidableEq, Repr

/-- Embedding of `log_epoch_to_stdout` (lines 289–324), fired on
`VALIDATION_COMPLETED`.  The timer readings are passed in as whole
seconds.  The guarded `validation/loss` read falls back to the sentinel
(`none`); the unguarded `train/loss` read raises — embedded as result
`none` — when the key is absent (KeyError) or its list is empty
(IndexError).  A `some` result is the logged summary. -/
def log_epoch_to_stdout (epochSecs overallSecs : ℕ) (st : EngineState) :
    Option EpochSummary :=
  let vloss := (hfind st.epoch_history "validation/loss").bind List.getLast?
  match (hfind st.epoch_history "train/loss").bind List.getLast? with
  | none => none
  | some tl => some
      { epoch_number := st.epoch
        total_epochs := st.max_epochs
        train_loss := tl
        validation_loss := vloss
        epoch_time := strftimeHMS epochSecs
        overall_time := strftimeHMS overallSecs
        saved_model_path := st.saved_model_path
        out_folder := st.output_folder }


/-- The values observed under key `k` across a list of iteration outputs,
in order (one per output that contains the key). -/
def outputsVals (os : List (List (String × ℚ))) (k : String) : List ℚ :=
  os.filterMap (fun o => hfind o k)

/-- The values observed under key `k` during one epoch's iterations. -/
def epochTrainVals (e : EpochSpec) (k : String) : List ℚ :=
  outputsVals e.iters k

/-- A concrete checkpoint configuration used to instantiate the theorems
below on closed inputs. -/
def sampleSetup : CheckpointSetup :=
  { output_folder := "exp"
    model := TorchModel.base "m"
    train_data :=
      { stft_params := "stft"
        sample_rate := 44100
        num_channels := 1
        folder := "data"
        transform := "compose" } }

/-- A concrete epoch: two iterations with losses 1 and 3, validation
loss 2. -/
def sampleEpoch1 : EpochSpec :=
  { iters := [[("loss", 1)], [("loss", 3)]], valHist := some [("loss", [2])] }

/-- A concrete epoch: one iteration with loss 5, validation loss 4. -/
def sampleEpoch2 : EpochSpec :=
  { iters := [[("loss", 5)]], valHist := some [("loss", [4])] }


/-- A concrete engine state with one recorded training loss and a pending
output, used to instantiate the theorems below on closed inputs. -/
def sampleIterState : EngineState :=
  { output := [("loss", 2)]
    iter_history := [("loss", [1])]
    past_iter_history := [("loss", [[1]])] }

/-- A concrete epoch history holding the first four validation losses of
the spec's Scenario C. -/
def sampleValEH : List (String × List ℚ) :=
  [("validation/loss", [9/10, 1/2, 3/5, 2/5])]

/-- A concrete validator iteration history whose mean loss ties the
minimum recorded so far. -/
def sampleValVH : List (String × List ℚ) :=
  [("loss", [2/5])]


/-- The metadata block the checkpoint handler assembles for a given
validator result and pre-handler state: the dataset descriptor plus the
state whose epoch history already contains this epoch's validation and
train means (lines 218–233). -/
def checkpointMeta (cfg : CheckpointSetup)
    (v : Option (List (String × List ℚ))) (st : EngineState) : Metadata :=
  mkMetadata cfg.train_data
    { st with epoch_history :=
        appendTrainMeans st.iter_history (ehAfterValidation v st.epoch_history) }


/-! ## Basic lemmas about the association-list operations -/

theorem str_append_left_cancel {s t u : String} (h : s ++ t = s ++ u) : t = u := by
  have h2 := congrArg String.data h
  simp [String.data_append] at h2
  exact String.ext h2

theorem train_key_ne_validation_key (s t : String) :
    ("train/" ++ s) ≠ ("validation/" ++ t) := by
  intro h
  have h2 := congrArg String.data h
  simp [String.data_append] at h2

theorem hfind_append {β : Type} (h h' : List (String × β)) (k : String) :
    hfind (h ++ h') k = ((hfind h k).rec (hfind h' k) (fun v => some v)) := by
  induction h with
  | nil => simp [hfind]
  | cons p t ih =>
    by_cases hp : p.1 = k
    · simp [hfind, hp]
    · simp [hfind, hp, ih]

theorem hfind_appendAt_self {β : Type} (h : List (String × List β))
    (k : String) (v : β) (l : List β) (hh : hfind h k = some l) :
    hfind (appendAt k v h) k = some (l ++ [v]) := by
  induction h with
  | nil => simp [hfind] at hh
  | cons p t ih =>
    obtain ⟨a, b⟩ := p
    by_cases hp : a = k
    · rw [appendAt, if_pos hp]
      rw [hfind, if_pos hp] at hh ⊢
      cases hh
      rfl
    · rw [appendAt, if_neg hp]
      rw [hfind, if_neg hp] at hh ⊢
      exact ih hh

theorem hfind_appendAt_ne {β : Type} (h : List (String × List β))
    (k k' : String) (v : β) (hne : k' ≠ k) :
    hfind (appendAt k' v h) k = hfind h k := by
  induction h with
  | nil => rfl
  | cons p t ih =>
    obtain ⟨a, b⟩ := p
    by_cases hp : a = k'
    · rw [appendAt, if_pos hp]
      have hak : a ≠ k := fun hak => hne (hp ▸ hak ▸ rfl)
      rw [hfind, if_neg hak]
      rw [hfind, if_neg hak]
      exact ih
    · rw [appendAt, if_neg hp]
      by_cases hq : a = k
      · rw [hfind, if_pos hq, hfind, if_pos hq]
      · rw [hfind, if_neg hq, hfind, if_neg hq]
        exact ih

theorem appendAt_keys {β : Type} (h : List (String × List β)) (k : String) (v : β) :
    (appendAt k v h).map Prod.fst = h.map Prod.fst := by
  induction h with
  | nil => rfl
  | cons p t ih =>
    obtain ⟨a, b⟩ := p
    by_cases hp : a = k
    · rw [appendAt, if_pos hp]
      simp [ih]
    · rw [appendAt, if_neg hp]
      simp [ih]

theorem hfind_histAppend_self {β : Type} (h : List (String × List β))
    (k : String) (v : β) :
    hfind (histAppend h k v) k = some (hGetD h k ++ [v]) := by
  cases hh : hfind h k with
  | none =>
    simp only [histAppend, hh, hfind_append, hfind, if_pos rfl, hGetD]
    rfl
  | some l =>
    simp only [histAppend, hh, hGetD]
    rw [hfind_appendAt_self h k v l hh]
    rfl

theorem hfind_histAppend_ne {β : Type} (h : List (String × List β))
    (k k' : String) (v : β) (hne : k' ≠ k) :
    hfind (histAppend h k' v) k = hfind h k := by
  cases hh : hfind h k' with
  | none =>
    simp only [histAppend, hh, hfind_append, hfind, if_neg hne]
    cases hq : hfind h k <;> rfl
  | some l =>
    simp only [histAppend, hh]
    exact hfind_appendAt_ne h k k' v hne

theorem hGetD_histAppend_self {β : Type} (h : List (String × List β))
    (k : String) (v : β) :
    hGetD (histAppend h k v) k = hGetD h k ++ [v] := by
  unfold hGetD
  rw [hfind_histAppend_self]
  rfl

theorem hGetD_histAppend_ne {β : Type} (h : List (String × List β))
    (k k' : String) (v : β) (hne : k' ≠ k) :
    hGetD (histAppend h k' v) k = hGetD h k := by
  unfold hGetD
  rw [hfind_histAppend_ne _ _ _ _ hne]

theorem hfind_eq_none_iff {β : Type} (h : List (String × β)) (k : String) :
    hfind h k = none ↔ k ∉ h.map Prod.fst := by
  induction h with
  | nil => simp [hfind]
  | cons p t ih =>
    obtain ⟨a, b⟩ := p
    by_cases hp : a = k
    · rw [hfind, if_pos hp]
      simp [hp]
    · rw [hfind, if_neg hp]
      simp [ih, Ne.symm hp]

theorem histAppend_keys_nodup {β : Type} (h : List (String × List β))
    (k : String) (v : β) (hnd : (h.map Prod.fst).Nodup) :
    ((histAppend h k v).map Prod.fst).Nodup := by
  cases hh : hfind h k with
  | none =>
    have hk : k ∉ h.map Prod.fst := (hfind_eq_none_iff h k).mp hh
    simp only [histAppend, hh]
    simp [List.nodup_append, hnd, hk]
  | some l =>
    simp only [histAppend, hh, appendAt_keys]
    exact hnd

/-! ## Folding `histAppend` over an association list -/

theorem hfind_foldl_histAppend_ne {δ β : Type} (l : List (String × δ))
    (kt : String → String) (mf : δ → β) (h : List (String × List β))
    (t : String) (hne : ∀ p ∈ l, kt p.1 ≠ t) :
    hfind (l.foldl (fun acc p => histAppend acc (kt p.1) (mf p.2)) h) t
      = hfind h t := by
  induction l generalizing h with
  | nil => rfl
  | cons x xs ih =>
    rw [List.foldl_cons]
    rw [ih _ (fun y hy => hne y (List.mem_cons_of_mem x hy))]
    exact hfind_histAppend_ne h t (kt x.1) (mf x.2) (hne x (List.mem_cons_self x xs))

theorem hfind_foldl_histAppend_of_lookup {δ β : Type} (l : List (String × δ))
    (kt : String → String) (mf : δ → β) (h : List (String × List β))
    (k : String) (vs : δ)
    (hinj : ∀ a b : String, kt a = kt b → a = b)
    (hnd : (l.map Prod.fst).Nodup)
    (hl : hfind l k = some vs) :
    hfind (l.foldl (fun acc p => histAppend acc (kt p.1) (mf p.2)) h) (kt k)
      = some (hGetD h (kt k) ++ [mf vs]) := by
  induction l generalizing h with
  | nil => simp [hfind] at hl
  | cons p t ih =>
    obtain ⟨a, b⟩ := p
    rw [List.foldl_cons]
    by_cases hp : a = k
    · subst hp
      rw [hfind, if_pos rfl] at hl
      cases hl
      have hnd2 : (a :: t.map Prod.fst).Nodup := by simpa using hnd
      have ha : a ∉ t.map Prod.fst := (List.nodup_cons.mp hnd2).1
      have hne : ∀ q ∈ t, kt q.1 ≠ kt a := by
        intro q hq hkq
        exact ha ((hinj _ _ hkq) ▸ List.mem_map_of_mem Prod.fst hq)
      rw [hfind_foldl_histAppend_ne t kt mf _ (kt a) hne]
      exact hfind_histAppend_self h (kt a) (mf vs)
    · rw [hfind, if_neg hp] at hl
      have hnd2 : (a :: t.map Prod.fst).Nodup := by simpa using hnd
      have hnd' : (t.map Prod.fst).Nodup := (List.nodup_cons.mp hnd2).2
      rw [ih _ hnd' hl]
      have hak : kt a ≠ kt k := fun hc => hp (hinj _ _ hc)
      rw [hGetD_histAppend_ne h (kt k) (kt a) (mf b) hak]

/-! ## Specializations to the two epoch-history loops -/

theorem hfind_appendValidationMeans_self (vh : List (String × List ℚ))
    (eh : List (String × List ℚ)) (k : String) (vs : List ℚ)
    (hnd : (vh.map Prod.fst).Nodup) (hl : hfind vh k = some vs) :
    hfind (appendValidationMeans vh eh) ("validation/" ++ k)
      = some (hGetD eh ("validation/" ++ k) ++ [pyMean vs]) :=
  hfind_foldl_histAppend_of_lookup vh (fun s => "validation/" ++ s) pyMean eh k vs
    (fun _ _ hc => str_append_left_cancel hc) hnd hl

theorem hfind_appendValidationMeans_absent (vh : List (String × List ℚ))
    (eh : List (String × List ℚ)) (k : String) (hl : hfind vh k = none) :
    hfind (appendValidationMeans vh eh) ("validation/" ++ k)
      = hfind eh ("validation/" ++ k) := by
  have hk : k ∉ vh.map Prod.fst := (hfind_eq_none_iff vh k).mp hl
  exact hfind_foldl_histAppend_ne vh (fun s => "validation/" ++ s) pyMean eh _
    (fun p hp hc =>
      hk ((str_append_left_cancel hc) ▸ List.mem_map_of_mem Prod.fst hp))

theorem hfind_appendValidationMeans_train (vh : List (String × List ℚ))
    (eh : List (String × List ℚ)) (k : String) :
    hfind (appendValidationMeans vh eh) ("train/" ++ k)
      = hfind eh ("train/" ++ k) :=
  hfind_foldl_histAppend_ne vh (fun s => "validation/" ++ s) pyMean eh _
    (fun p _ hc => train_key_ne_validation_key k p.1 hc.symm)

theorem hfind_appendTrainMeans_self (ih : List (String × List ℚ))
    (eh : List (String × List ℚ)) (k : String) (vs : List ℚ)
    (hnd : (ih.map Prod.fst).Nodup) (hl : hfind ih k = some vs) :
    hfind (appendTrainMeans ih eh) ("train/" ++ k)
      = some (hGetD eh ("train/" ++ k) ++ [pyMean vs]) :=
  hfind_foldl_histAppend_of_lookup ih (fun s => "train/" ++ s) pyMean eh k vs
    (fun _ _ hc => str_append_left_cancel hc) hnd hl

theorem hfind_appendTrainMeans_validation (ih : List (String × List ℚ))
    (eh : List (String × List ℚ)) (k : String) :
    hfind (appendTrainMeans ih eh) ("validation/" ++ k)
      = hfind eh ("validation/" ++ k) :=
  hfind_foldl_histAppend_ne ih (fun s => "train/" ++ s) pyMean eh _
    (fun p _ hc => train_key_ne_validation_key p.1 k hc)

theorem hfind_ehAfterValidation_train (v : Option (List (String × List ℚ)))
    (eh : List (String × List ℚ)) (k : String) :
    hfind (ehAfterValidation v eh) ("train/" ++ k) = hfind eh ("train/" ++ k) := by
  cases v with
  | none => rfl
  | some vh => exact hfind_appendValidationMeans_train vh eh k

/-! ## State lemmas for the iteration handlers -/

theorem hfind_of_hGetD_ne {β : Type} (h : List (String × List β)) (k : String)
    (hne : hGetD h k ≠ []) : hfind h k = some (hGetD h k) := by
  cases hh : hfind h k with
  | none =>
    exact absurd (by simp [hGetD, hh]) hne
  | some l =>
    simp [hGetD, hh]

theorem outputsVals_cons (o : List (String × ℚ)) (os : List (List (String × ℚ)))
    (k : String) :
    outputsVals (o :: os) k = (hfind o k).toList ++ outputsVals os k := by
  cases hh : hfind o k <;> simp [outputsVals, List.filterMap_cons, hh]

theorem foldl_addOutputEntry_epoch_history (o : List (String × ℚ)) (st : EngineState) :
    (o.foldl addOutputEntry st).epoch_history = st.epoch_history := by
  induction o generalizing st with
  | nil => rfl
  | cons p t ih => rw [List.foldl_cons, ih]; rfl

theorem processIteration_epoch_history (o : List (String × ℚ)) (st : EngineState) :
    (processIteration o st).epoch_history = st.epoch_history := by
  unfold processIteration add_to_iter_history
  rw [foldl_addOutputEntry_epoch_history]

theorem foldl_processIteration_epoch_history (os : List (List (String × ℚ)))
    (st : EngineState) :
    (os.foldl (fun s o => processIteration o s) st).epoch_history
      = st.epoch_history := by
  induction os generalizing st with
  | nil => rfl
  | cons o t ih => rw [List.foldl_cons, ih, processIteration_epoch_history]

theorem foldl_addOutputEntry_iter_of_ne (o : List (String × ℚ)) (st : EngineState)
    (k : String) (hne : ∀ p ∈ o, p.1 ≠ k) :
    hGetD ((o.foldl addOutputEntry st).iter_history) k = hGetD st.iter_history k := by
  induction o generalizing st with
  | nil => rfl
  | cons p t ih =>
    rw [List.foldl_cons, ih _ (fun q hq => hne q (List.mem_cons_of_mem p hq))]
    exact hGetD_histAppend_ne _ _ _ _ (hne p (List.mem_cons_self p t))

theorem foldl_addOutputEntry_past_of_ne (o : List (String × ℚ)) (st : EngineState)
    (k : String) (hne : ∀ p ∈ o, p.1 ≠ k) :
    hGetD ((o.foldl addOutputEntry st).past_iter_history) k
      = hGetD st.past_iter_history k := by
  induction o generalizing st with
  | nil => rfl
  | cons p t ih =>
    rw [List.foldl_cons, ih _ (fun q hq => hne q (List.mem_cons_of_mem p hq))]
    exact hGetD_histAppend_ne _ _ _ _ (hne p (List.mem_cons_self p t))

theorem foldl_addOutputEntry_iter (o : List (String × ℚ)) (st : EngineState)
    (k : String) (v : ℚ) (hnd : (o.map Prod.fst).Nodup) (hl : hfind o k = some v) :
    hGetD ((o.foldl addOutputEntry st).iter_history) k
      = hGetD st.iter_history k ++ [v] := by
  induction o generalizing st with
  | nil => simp [hfind] at hl
  | cons p t ih =>
    obtain ⟨a, b⟩ := p
    have hnd2 : (a :: t.map Prod.fst).Nodup := by simpa using hnd
    rw [List.foldl_cons]
    by_cases hp : a = k
    · subst hp
      rw [hfind, if_pos rfl] at hl
      cases hl
      have ha : a ∉ t.map Prod.fst := (List.nodup_cons.mp hnd2).1
      have hne : ∀ q ∈ t, q.1 ≠ a := by
        intro q hq hq1
        exact ha (hq1 ▸ List.mem_map_of_mem Prod.fst hq)
      rw [foldl_addOutputEntry_iter_of_ne t _ a hne]
      exact hGetD_histAppend_self _ _ _
    · rw [hfind, if_neg hp] at hl
      rw [ih _ (List.nodup_cons.mp hnd2).2 hl]
      have : hGetD (addOutputEntry st (a, b)).iter_history k
          = hGetD st.iter_history k := hGetD_histAppend_ne _ _ _ _ hp
      rw [this]

theorem foldl_addOutputEntry_past (o : List (String × ℚ)) (st : EngineState)
    (k : String) (v : ℚ) (hnd : (o.map Prod.fst).Nodup) (hl : hfind o k = some v) :
    hGetD ((o.foldl addOutputEntry st).past_iter_history) k
      = hGetD st.past_iter_history k ++ [hGetD st.iter_history k ++ [v]] := by
  induction o generalizing st with
  | nil => simp [hfind] at hl
  | cons p t ih =>
    obtain ⟨a, b⟩ := p
    have hnd2 : (a :: t.map Prod.fst).Nodup := by simpa using hnd
    rw [List.foldl_cons]
    by_cases hp : a = k
    · subst hp
      rw [hfind, if_pos rfl] at hl
      cases hl
      have ha : a ∉ t.map Prod.fst := (List.nodup_cons.mp hnd2).1
      have hne : ∀ q ∈ t, q.1 ≠ a := by
        intro q hq hq1
        exact ha (hq1 ▸ List.mem_map_of_mem Prod.fst hq)
      rw [foldl_addOutputEntry_past_of_ne t _ a hne]
      show hGetD (histAppend st.past_iter_history a
          (hGetD (histAppend st.iter_history a v) a)) a = _
      rw [hGetD_histAppend_self, hGetD_histAppend_self]
    · rw [hfind, if_neg hp] at hl
      rw [ih _ (List.nodup_cons.mp hnd2).2 hl]
      have h1 : hGetD (addOutputEntry st (a, b)).past_iter_history k
          = hGetD st.past_iter_history k := hGetD_histAppend_ne _ _ _ _ hp
      have h2 : hGetD (addOutputEntry st (a, b)).iter_history k
          = hGetD st.iter_history k := hGetD_histAppend_ne _ _ _ _ hp
      rw [h1, h2]

theorem processIteration_iter (o : List (String × ℚ)) (st : EngineState)
    (k : String) (hnd : (o.map Prod.fst).Nodup) :
    hGetD ((processIteration o st).iter_history) k
      = hGetD st.iter_history k ++ (hfind o k).toList := by
  cases hh : hfind o k with
  | none =>
    have hne : ∀ p ∈ o, p.1 ≠ k := by
      intro p hp hp1
      exact (hfind_eq_none_iff o k).mp hh (hp1 ▸ List.mem_map_of_mem Prod.fst hp)
    unfold processIteration add_to_iter_history
    rw [foldl_addOutputEntry_iter_of_ne o _ k hne]
    simp
  | some v =>
    unfold processIteration add_to_iter_history
    rw [foldl_addOutputEntry_iter o _ k v hnd hh]
    rfl

theorem foldl_addOutputEntry_iter_nodup (o : List (String × ℚ)) (st : EngineState)
    (hnd : (st.iter_history.map Prod.fst).Nodup) :
    (((o.foldl addOutputEntry st).iter_history).map Prod.fst).Nodup := by
  induction o generalizing st with
  | nil => exact hnd
  | cons p t ih =>
    rw [List.foldl_cons]
    exact ih _ (histAppend_keys_nodup _ _ _ hnd)

theorem foldl_processIteration_iter_nodup (os : List (List (String × ℚ)))
    (st : EngineState) (hnd : (st.iter_history.map Prod.fst).Nodup) :
    ((os.foldl (fun s o => processIteration o s) st).iter_history.map Prod.fst).Nodup := by
  induction os generalizing st with
  | nil => exact hnd
  | cons o t ih =>
    rw [List.foldl_cons]
    exact ih _ (foldl_addOutputEntry_iter_nodup o _ hnd)

theorem foldl_processIteration_iter (os : List (List (String × ℚ)))
    (st : EngineState) (k : String)
    (hnd : ∀ o ∈ os, (o.map Prod.fst).Nodup) :
    hGetD ((os.foldl (fun s o => processIteration o s) st).iter_history) k
      = hGetD st.iter_history k ++ outputsVals os k := by
  induction os generalizing st with
  | nil => simp [outputsVals]
  | cons o t ih =>
    rw [List.foldl_cons, ih _ (fun q hq => hnd q (List.mem_cons_of_mem o hq)),
      processIteration_iter o st k (hnd o (List.mem_cons_self o t)),
      outputsVals_cons, List.append_assoc]

/-! ## Past-iteration-history lemmas -/

theorem processIteration_past (o : List (String × ℚ)) (st : EngineState)
    (k : String) (v : ℚ) (hnd : (o.map Prod.fst).Nodup) (hl : hfind o k = some v) :
    hGetD ((processIteration o st).past_iter_history) k
      = hGetD st.past_iter_history k ++ [hGetD st.iter_history k ++ [v]] := by
  unfold processIteration add_to_iter_history
  exact foldl_addOutputEntry_past o _ k v hnd hl

theorem foldl_processIteration_past_length (os : List (List (String × ℚ)))
    (st : EngineState) (k : String)
    (hyp : ∀ o ∈ os, (o.map Prod.fst).Nodup ∧ (hfind o k).isSome) :
    (hGetD ((os.foldl (fun s o => processIteration o s) st).past_iter_history) k).length
      = (hGetD st.past_iter_history k).length + os.length := by
  induction os generalizing st with
  | nil => rfl
  | cons o t ih =>
    obtain ⟨hnd, hsome⟩ := hyp o (List.mem_cons_self o t)
    obtain ⟨v, hv⟩ := Option.isSome_iff_exists.mp hsome
    rw [List.foldl_cons, ih _ (fun q hq => hyp q (List.mem_cons_of_mem o hq)),
      processIteration_past o st k v hnd hv]
    simp [Nat.add_comm, Nat.add_assoc, Nat.add_left_comm]

/-! ## Epoch-level lemmas -/

theorem validate_and_checkpoint_epoch_history (cfg : CheckpointSetup)
    (v : Option (List (String × List ℚ))) (st : EngineState) :
    (validate_and_checkpoint cfg v st).1.epoch_history
      = appendTrainMeans st.iter_history (ehAfterValidation v st.epoch_history) := rfl

theorem runEpoch_train_hfind (cfg : CheckpointSetup) (e : EpochSpec)
    (st : EngineState) (k : String)
    (hnd : ∀ o ∈ e.iters, (o.map Prod.fst).Nodup)
    (hobs : epochTrainVals e k ≠ []) :
    hfind (runEpoch cfg e st).epoch_history ("train/" ++ k)
      = some (hGetD st.epoch_history ("train/" ++ k)
          ++ [pyMean (epochTrainVals e k)]) := by
  unfold runEpoch
  set st1 := clear_iter_history { st with epoch := st.epoch + 1 } with hst1
  set st2 := e.iters.foldl (fun s o => processIteration o s) st1 with hst2
  have hiter : hGetD st2.iter_history k = epochTrainVals e k := by
    rw [hst2, foldl_processIteration_iter e.iters st1 k hnd]
    have h1 : hGetD st1.iter_history k = [] := rfl
    rw [h1]
    simp [epochTrainVals]
  have hnodup : (st2.iter_history.map Prod.fst).Nodup := by
    rw [hst2]
    apply foldl_processIteration_iter_nodup
    have h1 : st1.iter_history = [] := rfl
    rw [h1]
    exact List.nodup_nil
  have hfind2 : hfind st2.iter_history k = some (epochTrainVals e k) := by
    rw [← hiter]
    exact hfind_of_hGetD_ne _ _ (hiter ▸ hobs)
  have heh : st2.epoch_history = st.epoch_history := by
    rw [hst2, foldl_processIteration_epoch_history]
    rfl
  rw [validate_and_checkpoint_epoch_history,
    hfind_appendTrainMeans_self st2.iter_history _ k (epochTrainVals e k) hnodup hfind2]
  have : hGetD (ehAfterValidation e.valHist st2.epoch_history) ("train/" ++ k)
      = hGetD st.epoch_history ("train/" ++ k) := by
    unfold hGetD
    rw [hfind_ehAfterValidation_train, heh]
  rw [this]

theorem runEpoch_train_hGetD (cfg : CheckpointSetup) (e : EpochSpec)
    (st : EngineState) (k : String)
    (hnd : ∀ o ∈ e.iters, (o.map Prod.fst).Nodup)
    (hobs : epochTrainVals e k ≠ []) :
    hGetD (runEpoch cfg e st).epoch_history ("train/" ++ k)
      = hGetD st.epoch_history ("train/" ++ k) ++ [pyMean (epochTrainVals e k)] := by
  unfold hGetD
  rw [runEpoch_train_hfind cfg e st k hnd hobs]
  rfl

theorem runEpoch_validation_hfind (cfg : CheckpointSetup) (e : EpochSpec)
    (st : EngineState) (k : String) (vh : List (String × List ℚ))
    (hv : e.valHist = some vh) (hnd : (vh.map Prod.fst).Nodup)
    (hl : (hfind vh k).isSome) :
    hfind (runEpoch cfg e st).epoch_history ("validation/" ++ k)
      = some (hGetD st.epoch_history ("validation/" ++ k)
          ++ [pyMean (hGetD vh k)]) := by
  unfold runEpoch
  set st2 := e.iters.foldl (fun s o => processIteration o s)
    (clear_iter_history { st with epoch := st.epoch + 1 }) with hst2
  have heh : st2.epoch_history = st.epoch_history := by
    rw [hst2, foldl_processIteration_epoch_history]
    rfl
  obtain ⟨vs, hvs⟩ := Option.isSome_iff_exists.mp hl
  have hvget : hGetD vh k = vs := by simp [hGetD, hvs]
  rw [validate_and_checkpoint_epoch_history, hv]
  show hfind (appendTrainMeans st2.iter_history (appendValidationMeans vh st2.epoch_history)) _ = _
  rw [hfind_appendTrainMeans_validation,
    hfind_appendValidationMeans_self vh st2.epoch_history k vs hnd hvs, heh, hvget]

theorem runEpoch_validation_hGetD (cfg : CheckpointSetup) (e : EpochSpec)
    (st : EngineState) (k : String) (vh : List (String × List ℚ))
    (hv : e.valHist = some vh) (hnd : (vh.map Prod.fst).Nodup)
    (hl : (hfind vh k).isSome) :
    hGetD (runEpoch cfg e st).epoch_history ("validation/" ++ k)
      = hGetD st.epoch_history ("validation/" ++ k) ++ [pyMean (hGetD vh k)] := by
  unfold hGetD
  rw [runEpoch_validation_hfind cfg e st k vh hv hnd hl]
  rfl

/-! ## Run-level lemmas -/

theorem foldl_runEpoch_train (cfg : CheckpointSetup) (es : List EpochSpec)
    (st : EngineState) (k : String)
    (hnd : ∀ e ∈ es, ∀ o ∈ e.iters, (o.map Prod.fst).Nodup)
    (hobs : ∀ e ∈ es, epochTrainVals e k ≠ []) :
    hGetD ((es.foldl (fun s e => runEpoch cfg e s) st).epoch_history) ("train/" ++ k)
      = hGetD st.epoch_history ("train/" ++ k)
          ++ es.map (fun e => pyMean (epochTrainVals e k)) := by
  induction es generalizing st with
  | nil => simp
  | cons e t ih =>
    rw [List.foldl_cons,
      ih _ (fun e' he' => hnd e' (List.mem_cons_of_mem e he'))
        (fun e' he' => hobs e' (List.mem_cons_of_mem e he')),
      runEpoch_train_hGetD cfg e st k (hnd e (List.mem_cons_self e t))
        (hobs e (List.mem_cons_self e t))]
    simp

theorem foldl_runEpoch_validation (cfg : CheckpointSetup) (es : List EpochSpec)
    (st : EngineState) (k : String)
    (hv : ∀ e ∈ es, ∃ vh, e.valHist = some vh ∧ (vh.map Prod.fst).Nodup
      ∧ (hfind vh k).isSome) :
    hGetD ((es.foldl (fun s e => runEpoch cfg e s) st).epoch_history) ("validation/" ++ k)
      = hGetD st.epoch_history ("validation/" ++ k)
          ++ es.map (fun e => pyMean (hGetD (e.valHist.getD []) k)) := by
  induction es generalizing st with
  | nil => simp
  | cons e t ih =>
    obtain ⟨vh, hveq, hvnd, hvsome⟩ := hv e (List.mem_cons_self e t)
    have hg : hGetD (e.valHist.getD []) k = hGetD vh k := by
      rw [hveq]
      rfl
    rw [List.foldl_cons, ih _ (fun e' he' => hv e' (List.mem_cons_of_mem e he')),
      runEpoch_validation_hGetD cfg e st k vh hveq hvnd hvsome]
    simp [hg]

/-! ## Trace of the checkpoint handler -/

theorem pyLast_append (l : List ℚ) (a : ℚ) : pyLast (l ++ [a]) = a := by
  simp [pyLast]

theorem latest_ne_best (f : String) :
    osPathJoin3 f "checkpoints" "latest.model.pth"
      ≠ osPathJoin3 f "checkpoints" "best.model.pth" := by
  intro h
  have h2 := str_append_left_cancel h
  exact absurd h2 (by decide)

theorem validate_and_checkpoint_trace (cfg : CheckpointSetup)
    (v : Option (List (String × List ℚ))) (st : EngineState) :
    (validate_and_checkpoint cfg v st).2
      = [TrainerAction.fireEvent TrainerEvent.validation_started]
        ++ (match v with
            | none => []
            | some _ => [TrainerAction.runValidator])
        ++ ([TrainerAction.makedirs (osPathJoin cfg.output_folder "checkpoints"),
             TrainerAction.saveModel
               (osPathJoin3 cfg.output_folder "checkpoints" "latest.model.pth")
               (unwrapDataParallel cfg.model)
               (checkpointMeta cfg v st),
             TrainerAction.saveOptimizer
               ((osPathJoin3 cfg.output_folder "checkpoints" "latest.model.pth").replace
                 "model.pth" "optimizer.pth")]
          ++ (if isBestAfterValidation v st.epoch_history then
               [TrainerAction.makedirs (osPathJoin cfg.output_folder "checkpoints"),
                TrainerAction.saveModel
                  (osPathJoin3 cfg.output_folder "checkpoints" "best.model.pth")
                  (unwrapDataParallel cfg.model)
                  (checkpointMeta cfg v st),
                TrainerAction.saveOptimizer
                  ((osPathJoin3 cfg.output_folder "checkpoints" "best.model.pth").replace
                    "model.pth" "optimizer.pth")]
             else []))
        ++ [TrainerAction.fireEvent TrainerEvent.validation_completed] := by
  by_cases hb : isBestAfterValidation v st.epoch_history
  · cases v <;> simp [validate_and_checkpoint, hb, checkpointMeta]
  · cases v <;> simp [validate_and_checkpoint, hb, checkpointMeta]

theorem validate_and_checkpoint_state (cfg : CheckpointSetup)
    (v : Option (List (String × List ℚ))) (st : EngineState) :
    (validate_and_checkpoint cfg v st).1.saved_model_path
      = some (if isBestAfterValidation v st.epoch_history
          then osPathJoin3 cfg.output_folder "checkpoints" "best.model.pth"
          else osPathJoin3 cfg.output_folder "checkpoints" "latest.model.pth")
    ∧ (validate_and_checkpoint cfg v st).1.output_folder = some cfg.output_folder := by
  by_cases hb : isBestAfterValidation v st.epoch_history
  · constructor <;> simp [validate_and_checkpoint, hb]
  · constructor <;> simp [validate_and_checkpoint, hb]


theorem runTrainer_train_hGetD (cfg : CheckpointSetup) (es : List EpochSpec)
    (st0 : EngineState) (k : String)
    (hnd : ∀ e ∈ es, ∀ o ∈ e.iters, (o.map Prod.fst).Nodup)
    (hobs : ∀ e ∈ es, epochTrainVals e k ≠ []) :
    hGetD (runTrainer cfg es st0).epoch_history ("train/" ++ k)
      = es.map (fun e => pyMean (epochTrainVals e k)) := by
  unfold runTrainer
  rw [foldl_runEpoch_train cfg es (book_keeping st0) k hnd hobs]
  have h0 : hGetD (book_keeping st0).epoch_history ("train/" ++ k) = [] := rfl
  rw [h0, List.nil_append]

theorem runTrainer_validation_hGetD (cfg : CheckpointSetup) (es : List EpochSpec)
    (st0 : EngineState) (k : String)
    (hv : ∀ e ∈ es, ∃ vh, e.valHist = some vh ∧ (vh.map Prod.fst).Nodup
      ∧ (hfind vh k).isSome) :
    hGetD (runTrainer cfg es st0).epoch_history ("validation/" ++ k)
      = es.map (fun e => pyMean (hGetD (e.valHist.getD []) k)) := by
  unfold runTrainer
  rw [foldl_runEpoch_validation cfg es (book_keeping st0) k hv]
  have h0 : hGetD (book_keeping st0).epoch_history ("validation/" ++ k) = [] := rfl
  rw [h0, List.nil_append]

/-! ## Claim theorems -/

/-- C5: `create_train_and_validation_engines` never raises on device
resolution (the embedded `resolveDevice` is total): whenever the CUDA
accelerator is unavailable the resolved device falls back to the CPU
device, silently and for every requested device; and after `prepare_batch`
runs, every tensor entry of the batch resides on the resolved device (and
has been cast to float). -/
theorem device_fallback_and_batch_placement (requested : TorchDevice)
    (cudaAvailable : Bool) (st : EngineState) :
    (cudaAvailable = false →
      resolveDevice requested cudaAvailable = TorchDevice.cpu)
    ∧ (∀ k t, (k, BatchEntry.tensor t)
          ∈ (prepare_batch (resolveDevice requested cudaAvailable) st).batch →
        t.device = resolveDevice requested cudaAvailable ∧ t.isFloat = true) := by
  constructor
  · intro h
    simp [resolveDevice, h]
  · intro k t hmem
    simp only [prepare_batch, List.mem_map] at hmem
    obtain ⟨p, hp, heq⟩ := hmem
    obtain ⟨a, b⟩ := p
    cases b with
    | tensor td =>
      simp only at heq
      have h2 : BatchEntry.tensor ⟨true, resolveDevice requested cudaAvailable⟩
          = BatchEntry.tensor t := congrArg Prod.snd heq
      have h3 := (BatchEntry.tensor.injEq _ _).mp h2
      rw [← h3]
      exact ⟨rfl, rfl⟩
    | nonTensor =>
      simp only at heq
      have h2 : BatchEntry.nonTensor = BatchEntry.tensor t := congrArg Prod.snd heq
      exact absurd h2 (by simp)

/-- Witness for C5 at a concrete input: requesting the `cuda` device with
no accelerator available resolves to `cpu`, and the tensor entry of a
concrete batch ends up on the resolved device as a float tensor. -/
theorem device_fallback_and_batch_placement_witness :
    TensorData.device ⟨true, TorchDevice.cpu⟩
        = resolveDevice TorchDevice.cuda false
      ∧ TensorData.isFloat ⟨true, TorchDevice.cpu⟩ = true :=
  (device_fallback_and_batch_placement TorchDevice.cuda false
      { batch := [("x", BatchEntry.tensor ⟨false, TorchDevice.cuda⟩)] }).2
    "x" ⟨true, TorchDevice.cpu⟩ (by decide)

/-- C6: when the key `validation/loss` is absent from the epoch history,
`log_epoch_to_stdout` does not crash: the validation-loss field of the
summary is the `'N/A'` sentinel (embedded as `none`) and the summary is
still produced and logged. -/
theorem stdout_validation_sentinel (a b : ℕ) (st : EngineState) (tl : ℚ)
    (hv : hfind st.epoch_history "validation/loss" = none)
    (ht : (hfind st.epoch_history "train/loss").bind List.getLast? = some tl) :
    log_epoch_to_stdout a b st = some
      { epoch_number := st.epoch
        total_epochs := st.max_epochs
        train_loss := tl
        validation_loss := none
        epoch_time := strftimeHMS a
        overall_time := strftimeHMS b
        saved_model_path := st.saved_model_path
        out_folder := st.output_folder } := by
  simp [log_epoch_to_stdout, hv, ht]

/-- Witness for C6 at a concrete input: a history with only a training
loss yields a summary carrying the sentinel. -/
theorem stdout_validation_sentinel_witness :
    log_epoch_to_stdout 0 0 { epoch_history := [("train/loss", [1])] } = some
      { epoch_number := 0
        total_epochs := 0
        train_loss := 1
        validation_loss := none
        epoch_time := strftimeHMS 0
        overall_time := strftimeHMS 0
        saved_model_path := none
        out_folder := none } :=
  stdout_validation_sentinel 0 0 { epoch_history := [("train/loss", [1])] } 1
    (by decide) (by decide)

/-- C9: the `train/loss` lookup in `log_epoch_to_stdout` is unguarded, in
contrast to the guarded `validation/loss` lookup: for every state whose
epoch history lacks the key `train/loss`, the handler raises (embedded as
result `none`) instead of producing a summary. -/
theorem stdout_requires_train_loss (a b : ℕ) (st : EngineState)
    (ht : hfind st.epoch_history "train/loss" = none) :
    log_epoch_to_stdout a b st = none := by
  simp [log_epoch_to_stdout, ht]

/-- Witness for C9 at a concrete input: with an empty epoch history the
handler produces no summary. -/
theorem stdout_requires_train_loss_witness :
    log_epoch_to_stdout 0 0 ({} : EngineState) = none :=
  stdout_requires_train_loss 0 0 {} (by decide)

/-- C8: for an iteration-completed event whose output contains key `k`
with value `v`, `add_to_iter_history` appends `v` to the iteration
history at `k` and then appends the entire updated iteration-history
sequence at `k` (not the single value) to the past iteration history at
`k`; consequently, over `i` iterations within an epoch whose outputs all
contain `k`, the past iteration history at `k` grows by exactly `i`
sequence entries. -/
theorem add_to_iter_history_appends_snapshot (st : EngineState) (k : String)
    (v : ℚ) (hnd : (st.output.map Prod.fst).Nodup)
    (hl : hfind st.output k = some v) :
    hGetD (add_to_iter_history st).iter_history k
        = hGetD st.iter_history k ++ [v]
    ∧ hGetD (add_to_iter_history st).past_iter_history k
        = hGetD st.past_iter_history k
            ++ [hGetD (add_to_iter_history st).iter_history k]
    ∧ (∀ os : List (List (String × ℚ)),
        (∀ o ∈ os, (o.map Prod.fst).Nodup ∧ (hfind o k).isSome) →
        (hGetD ((os.foldl (fun s o => processIteration o s) st).past_iter_history)
            k).length
          = (hGetD st.past_iter_history k).length + os.length) := by
  refine ⟨?_, ?_, ?_⟩
  · unfold add_to_iter_history
    exact foldl_addOutputEntry_iter st.output st k v hnd hl
  · unfold add_to_iter_history
    rw [foldl_addOutputEntry_past st.output st k v hnd hl,
      foldl_addOutputEntry_iter st.output st k v hnd hl]
  · intro os h
    exact foldl_processIteration_past_length os st k h

/-- Witness for C8 at a concrete input: an output `loss = 2` on top of an
iteration history `[1]` appends the snapshot `[1, 2]` to the past
iteration history. -/
theorem add_to_iter_history_appends_snapshot_witness :
    hGetD (add_to_iter_history sampleIterState).past_iter_history "loss"
      = hGetD sampleIterState.past_iter_history "loss"
          ++ [hGetD (add_to_iter_history sampleIterState).iter_history "loss"] :=
  (add_to_iter_history_appends_snapshot sampleIterState "loss" 2
    (by decide) (by decide)).2.1

/-- C1: the `is_best` resolution of the epoch-completed handler: with no
validation engine configured it is true; with a validator whose run
produced no `loss` entries and no previously recorded `validation/loss`
it defaults to true without raising (the `in` guard); and when the
validator produced `loss` values, it is true if and only if the
just-appended `validation/loss` mean equals the minimum ever recorded
under `validation/loss` in the trainer's epoch history, ties counting as
best. -/
theorem is_best_rule (eh vh : List (String × List ℚ))
    (hnd : (vh.map Prod.fst).Nodup) :
    isBestAfterValidation none eh = true
    ∧ (hfind vh "loss" = none → hfind eh "validation/loss" = none →
        isBestAfterValidation (some vh) eh = true)
    ∧ (∀ vs, hfind vh "loss" = some vs →
        (isBestAfterValidation (some vh) eh = true ↔
          pyMean vs = pyMin (hGetD eh "validation/loss" ++ [pyMean vs]))) := by
  refine ⟨rfl, ?_, ?_⟩
  · intro h1 h2
    have habs : hfind (appendValidationMeans vh eh) "validation/loss" = none := by
      have h3 := hfind_appendValidationMeans_absent vh eh "loss" h1
      rw [show ("validation/" ++ "loss") = "validation/loss" from rfl] at h3
      rw [h3, h2]
    simp [isBestAfterValidation, habs]
  · intro vs hvs
    have hsome := hfind_appendValidationMeans_self vh eh "loss" vs hnd hvs
    rw [show ("validation/" ++ "loss") = "validation/loss" from rfl] at hsome
    simp [isBestAfterValidation, hsome, pyLast_append]

/-- Witness for C1 at a concrete input: the fifth epoch of the spec's
Scenario C (validation losses 0.9, 0.5, 0.6, 0.4 so far, new mean 0.4)
ties the recorded minimum, so `is_best` is true. -/
theorem is_best_rule_witness :
    isBestAfterValidation (some sampleValVH) sampleValEH = true := by
  have h := (is_best_rule sampleValEH sampleValVH (by decide)).2.2
    [(2:ℚ)/5] (by simp [sampleValVH, hfind])
  apply h.mpr
  show pyMean [(2:ℚ)/5] = pyMin (hGetD sampleValEH "validation/loss" ++ [pyMean [(2:ℚ)/5]])
  norm_num [pyMean, pyMin, hGetD, hfind, sampleValEH, min_def]

/-- C3: for a run completing its list of epochs without error, and for a
metric key observed at least once in every epoch, the trainer's epoch
history under `train/{key}` is exactly the per-epoch means, one entry per
completed epoch in order (so its length is the number of completed epochs
and its n-th element is the mean of the key's per-iteration values during
epoch n); the same holds under `validation/{key}` when a validator is
configured and recorded the key each epoch.  The history accumulates by
appending only — it is never reset during the run. -/
theorem epoch_history_per_epoch_means (cfg : CheckpointSetup)
    (es : List EpochSpec) (st0 : EngineState) (k : String)
    (hnd : ∀ e ∈ es, ∀ o ∈ e.iters, (o.map Prod.fst).Nodup)
    (hobs : ∀ e ∈ es, epochTrainVals e k ≠ []) :
    hGetD (runTrainer cfg es st0).epoch_history ("train/" ++ k)
      = es.map (fun e => pyMean (epochTrainVals e k))
    ∧ ((∀ e ∈ es, ∃ vh, e.valHist = some vh ∧ (vh.map Prod.fst).Nodup
          ∧ (hfind vh k).isSome) →
        hGetD (runTrainer cfg es st0).epoch_history ("validation/" ++ k)
          = es.map (fun e => pyMean (hGetD (e.valHist.getD []) k))) :=
  ⟨runTrainer_train_hGetD cfg es st0 k hnd hobs,
   fun hv => runTrainer_validation_hGetD cfg es st0 k hv⟩

/-- Witness for C3 at a concrete input: a two-epoch run with losses
1, 3 (mean 2) then 5 (mean 5). -/
theorem epoch_history_per_epoch_means_witness :
    hGetD (runTrainer sampleSetup [sampleEpoch1, sampleEpoch2] {}).epoch_history
        ("train/" ++ "loss")
      = [sampleEpoch1, sampleEpoch2].map (fun e => pyMean (epochTrainVals e "loss")) :=
  (epoch_history_per_epoch_means sampleSetup [sampleEpoch1, sampleEpoch2] {} "loss"
    (by simp [sampleEpoch1, sampleEpoch2])
    (by simp [sampleEpoch1, sampleEpoch2, epochTrainVals, outputsVals, hfind])).1

/-- C7: when the step function raises during an epoch, the exception
propagates (the engine neither catches nor retries, so the embedded
aborted run performs no epoch-completed processing for the partial
epoch): the epoch history equals that of the run containing only the
completed epochs, and for a key observed in every completed epoch the
`train/{key}` history has exactly one entry per completed epoch — nothing
for the partial one. -/
theorem step_failure_keeps_completed_epochs_only (cfg : CheckpointSetup)
    (es : List EpochSpec) (failedIters : List (List (String × ℚ)))
    (st0 : EngineState) :
    (runTrainerAborted cfg es failedIters st0).epoch_history
      = (runTrainer cfg es st0).epoch_history
    ∧ (∀ k, (∀ e ∈ es, ∀ o ∈ e.iters, (o.map Prod.fst).Nodup) →
        (∀ e ∈ es, epochTrainVals e k ≠ []) →
        (hGetD (runTrainerAborted cfg es failedIters st0).epoch_history
            ("train/" ++ k)).length = es.length) := by
  have h1 : (runTrainerAborted cfg es failedIters st0).epoch_history
      = (runTrainer cfg es st0).epoch_history := by
    unfold runTrainerAborted
    rw [foldl_processIteration_epoch_history]
    rfl
  refine ⟨h1, ?_⟩
  intro k hnd hobs
  rw [h1, runTrainer_train_hGetD cfg es st0 k hnd hobs]
  simp

/-- Witness for C7 at a concrete input: one completed epoch, then a raise
after one iteration of the second epoch — exactly one `train/loss`
entry. -/
theorem step_failure_keeps_completed_epochs_only_witness :
    (hGetD (runTrainerAborted sampleSetup [sampleEpoch1] [[("loss", 7)]] {}).epoch_history
        ("train/" ++ "loss")).length = 1 :=
  (step_failure_keeps_completed_epochs_only sampleSetup [sampleEpoch1] [[("loss", 7)]] {}).2
    "loss" (by simp [sampleEpoch1])
    (by simp [sampleEpoch1, epochTrainVals, outputsVals, hfind])

/-- C2: on every completed training epoch the checkpoint handler writes
the (data-parallel-unwrapped) model together with the assembled metadata
to `{output_folder}/checkpoints/latest.model.pth`; it writes the same to
`best.model.pth` exactly when `is_best` holds; every model write is
preceded in the trace by ensuring the checkpoints directory exists, saves
only the unwrapped model, and is accompanied by an optimizer write to the
sibling path obtained by replacing the model suffix `model.pth` with the
optimizer suffix `optimizer.pth`. -/
theorem checkpoint_writes_latest_and_best (cfg : CheckpointSetup)
    (v : Option (List (String × List ℚ))) (st : EngineState) :
    TrainerAction.saveModel
        (osPathJoin3 cfg.output_folder "checkpoints" "latest.model.pth")
        (unwrapDataParallel cfg.model) (checkpointMeta cfg v st)
      ∈ (validate_and_checkpoint cfg v st).2
    ∧ ((TrainerAction.saveModel
          (osPathJoin3 cfg.output_folder "checkpoints" "best.model.pth")
          (unwrapDataParallel cfg.model) (checkpointMeta cfg v st)
        ∈ (validate_and_checkpoint cfg v st).2)
      ↔ isBestAfterValidation v st.epoch_history = true)
    ∧ (∀ p m mm, TrainerAction.saveModel p m mm
          ∈ (validate_and_checkpoint cfg v st).2 →
        TrainerAction.saveOptimizer (p.replace "model.pth" "optimizer.pth")
            ∈ (validate_and_checkpoint cfg v st).2
          ∧ TrainerAction.makedirs (osPathJoin cfg.output_folder "checkpoints")
            ∈ (validate_and_checkpoint cfg v st).2
          ∧ m = unwrapDataParallel cfg.model) := by
  have hne := latest_ne_best cfg.output_folder
  rw [validate_and_checkpoint_trace cfg v st]
  by_cases hb : isBestAfterValidation v st.epoch_history
  · refine ⟨?_, ?_, ?_⟩
    · cases v <;> simp [hb]
    · cases v <;> simp [hb]
    · intro p m mm hmem
      cases v <;> rw [if_pos hb] at hmem ⊢ <;> simp at hmem <;>
        rcases hmem with ⟨hp, hm, _⟩ | ⟨hp, hm, _⟩ <;>
        subst hp <;> subst hm <;> simp [hb]
  · refine ⟨?_, ?_, ?_⟩
    · cases v <;> simp [hb]
    · cases v <;> simp [hb, hne, Ne.symm hne]
    · intro p m mm hmem
      cases v <;> rw [if_neg hb] at hmem ⊢ <;> simp at hmem <;>
        obtain ⟨hp, hm, _⟩ := hmem <;> subst hp <;> subst hm <;> simp [hb]

/-- Witness for C2 at a concrete input: with no validator and an empty
state, the optimizer is written next to the latest model checkpoint, the
directory is ensured, and the saved model is the unwrapped one. -/
theorem checkpoint_writes_latest_and_best_witness :
    TrainerAction.saveOptimizer
        ((osPathJoin3 "exp" "checkpoints" "latest.model.pth").replace
          "model.pth" "optimizer.pth")
      ∈ (validate_and_checkpoint sampleSetup none ({} : EngineState)).2 :=
  ((checkpoint_writes_latest_and_best sampleSetup none {}).2.2
    (osPathJoin3 "exp" "checkpoints" "latest.model.pth")
    (unwrapDataParallel sampleSetup.model) (checkpointMeta sampleSetup none {})
    (checkpoint_writes_latest_and_best sampleSetup none {}).1).1

/-- C10: after the epoch-completed handler runs, the trainer state
records `saved_model_path` as the last target path written — the best
path exactly on epochs where `is_best` holds, otherwise the latest path —
and records the output folder; and the validation-completed event is
fired exactly once, as the final action of the handler, after every
checkpoint write and after both fields are set (the returned state is the
one subscribers observe). -/
theorem checkpoint_records_then_fires (cfg : CheckpointSetup)
    (v : Option (List (String × List ℚ))) (st : EngineState) :
    (validate_and_checkpoint cfg v st).1.saved_model_path
      = some (if isBestAfterValidation v st.epoch_history
          then osPathJoin3 cfg.output_folder "checkpoints" "best.model.pth"
          else osPathJoin3 cfg.output_folder "checkpoints" "latest.model.pth")
    ∧ (validate_and_checkpoint cfg v st).1.output_folder = some cfg.output_folder
    ∧ (validate_and_checkpoint cfg v st).2.getLast?
      = some (TrainerAction.fireEvent TrainerEvent.validation_completed)
    ∧ (validate_and_checkpoint cfg v st).2.count
        (TrainerAction.fireEvent TrainerEvent.validation_completed) = 1 := by
  refine ⟨(validate_and_checkpoint_state cfg v st).1,
    (validate_and_checkpoint_state cfg v st).2, ?_, ?_⟩
  · rw [validate_and_checkpoint_trace cfg v st]
    by_cases hb : isBestAfterValidation v st.epoch_history <;>
      cases v <;> simp [hb]
  · rw [validate_and_checkpoint_trace cfg v st]
    by_cases hb : isBestAfterValidation v st.epoch_history <;>
      cases v <;> simp [hb, List.count_cons, List.count_append]

/-- C4 counterexample: the claim says the progress interval is
`ceil(length × frequency)` (minimum 1), but line 48 of the source computes
`max(int(len(dataset) * log_frequency), 1)`, and Python `int()` truncates.
For a 5-item dataset with frequency 3/10 the product is 3/2: the code's
interval is 1 (so 5 progress lines over one pass), while the claimed
ceiling interval is 2 (which would give 2 lines). -/
theorem cache_interval_counterexample :
    (cache_dataset (List.range 5) ((3:ℚ)/10)).log_interval = 1
    ∧ cacheIntervalSpec 5 ((3:ℚ)/10) = 2
    ∧ (cache_dataset (List.range 5) ((3:ℚ)/10)).log_count = 5
    ∧ 5 / cacheIntervalSpec 5 ((3:ℚ)/10) = 2 := by
  have h1 : ((List.range 5).length : ℚ) * ((3:ℚ)/10) = 3/2 := by
    norm_num
  have h2 : pyInt ((3:ℚ)/2) = 1 := by
    rw [pyInt, if_pos (by norm_num)]
    norm_num
  have hc : (⌈(5 : ℚ) * ((3:ℚ)/10)⌉ : ℤ) = 2 := by
    rw [Int.ceil_eq_iff]
    norm_num
  have h3 : (⌈(5 : ℚ) * ((3:ℚ)/10)⌉).toNat = 2 := by rw [hc]; rfl
  refine ⟨?_, ?_, ?_, ?_⟩
  · show (max (pyInt (((List.range 5).length : ℚ) * ((3:ℚ)/10))) 1).toNat = 1
    rw [h1, h2]
    decide
  · show (max (⌈(5 : ℚ) * ((3:ℚ)/10)⌉).toNat 1) = 2
    rw [h3]
    decide
  · show (List.range 5).length
        / (max (pyInt (((List.range 5).length : ℚ) * ((3:ℚ)/10))) 1).toNat = 5
    rw [h1, h2]
    decide
  · show 5 / (max (⌈(5 : ℚ) * ((3:ℚ)/10)⌉).toNat 1) = 2
    rw [h3]
    decide

/-- C4 as amended: `cache_dataset` iterates the dataset exactly once
without transforming items and sets the cache-populated flag; the
progress interval is `max(int(length × frequency), 1)` where `int`
truncates — for nonnegative products, the floor rather than the claimed
ceiling — and one progress line is logged per full interval, so
`floor(length / interval)` lines in total; a 100-item dataset with
frequency 1/10 still logs exactly 10 lines. -/
theorem cache_dataset_floor_interval {α : Type} (ds : List α) (f : ℚ)
    (hf : 0 < f) :
    (cache_dataset ds f).dataset = ds
    ∧ (cache_dataset ds f).cache_populated = true
    ∧ (cache_dataset ds f).iterations = ds.length
    ∧ (cache_dataset ds f).log_interval = max (⌊(ds.length : ℚ) * f⌋).toNat 1
    ∧ (cache_dataset ds f).log_count
        = ds.length / max (⌊(ds.length : ℚ) * f⌋).toNat 1 := by
  have h0 : (0:ℚ) ≤ (ds.length : ℚ) * f :=
    mul_nonneg (by positivity) hf.le
  have hint : pyInt ((ds.length : ℚ) * f) = ⌊(ds.length : ℚ) * f⌋ := if_pos h0
  have hmax : (max (pyInt ((ds.length : ℚ) * f)) 1).toNat
      = max (⌊(ds.length : ℚ) * f⌋).toNat 1 := by
    rw [hint]
    omega
  exact ⟨rfl, rfl, rfl, hmax, by rw [show (cache_dataset ds f).log_count
    = ds.length / (max (pyInt ((ds.length : ℚ) * f)) 1).toNat from rfl, hmax]⟩

/-- Witness for the amended C4 at the concrete input of the spec's
Scenario A: 100 items, frequency 1/10, exactly 10 progress lines and the
flag set. -/
theorem cache_dataset_floor_interval_witness :
    (cache_dataset (List.range 100) ((1:ℚ)/10)).cache_populated = true
    ∧ (cache_dataset (List.range 100) ((1:ℚ)/10)).log_count = 10 := by
  refine ⟨(cache_dataset_floor_interval (List.range 100) ((1:ℚ)/10)
    (by norm_num)).2.1, ?_⟩
  rw [(cache_dataset_floor_interval (List.range 100) ((1:ℚ)/10)
    (by norm_num)).2.2.2.2]
  have hf : (⌊((List.range 100).length : ℚ) * ((1:ℚ)/10)⌋ : ℤ) = 10 := by
    norm_num
  rw [hf]
  decide

end Nussl
